import Mathlib

/-!
Verification of the optimistic-concurrency transaction layer in
`database.go` (package `github.com/clayts/database`).

The development is a shallow embedding of the Go source:

* the serialization codec (`encoding/gob`, an external library used by
  `Write`/`Read`) is modelled from the spec as a self-describing
  encoder/decoder over structural values;
* the store adapter (`go-redis`) is modelled as an environment: key
  contents plus the outcome of `WATCH` registrations and of the `EXEC`
  of each attempt's transactional pipeline;
* `Transaction.Exists`, `Transaction.Read`, `Transaction.Write` and
  `Transact` are translated statement by statement from `database.go`,
  with store interactions made explicit as effect traces.
-/

namespace ClaytsDatabase

/-- Error values surfaced by the layer: `redis.Nil` for an absent key,
a transport failure of a `WATCH` registration, the `EXEC` conflict error
of the optimistic lock, gob encode/decode failures, and errors returned
by the caller's own function (tagged by a number so distinct business
errors are distinguishable). -/
inductive DBError where
  | notFound
  | watchFailed
  | conflict
  | encodeFailed
  | decodeFailed
  | business (n : Nat)
deriving DecidableEq, Repr

/-! ## Serialization codec

Modelled from the spec: the codec itself is Go's `encoding/gob`, an
external library not part of this repository.  Per the spec it "encodes
an arbitrary typed value into a self-describing byte string and decodes
a byte string back into a typed destination; supports nested structural
types (maps, records, primitives) without a predeclared schema".
Values are integers, strings, booleans and string-keyed records/maps
whose fields hold further values; byte strings are `List Nat`. -/

mutual
inductive Value where
  | vint : Int → Value
  | vstr : String → Value
  | vbool : Bool → Value
  | vmap : Fields → Value
deriving DecidableEq, Repr

inductive Fields where
  | fnil : Fields
  | fcons : String → Value → Fields → Fields
deriving DecidableEq, Repr
end

/-- Encoding of a string: its length followed by its character codes. -/
def encodeStr (s : String) : List Nat :=
  s.length :: s.data.map Char.toNat

/-- Encoding of an integer: a sign token followed by the absolute value. -/
def encodeInt (i : Int) : List Nat :=
  [if i < 0 then 1 else 0, i.natAbs]

mutual
/-- Self-describing encoding of a value: a tag token followed by the
payload. -/
def encodeV : Value → List Nat
  | .vint i => 0 :: encodeInt i
  | .vstr s => 1 :: encodeStr s
  | .vbool b => 2 :: [cond b 1 0]
  | .vmap fs => 3 :: encodeF fs

/-- Encoding of record fields: a `1` marker before each field
(name, then value), and a final `0` marker. -/
def encodeF : Fields → List Nat
  | .fnil => [0]
  | .fcons k v fs => 1 :: (encodeStr k ++ (encodeV v ++ encodeF fs))
end

/-- Decoding of a string: read a length token, then that many character
codes. -/
def decodeStr (bs : List Nat) : Option (String × List Nat) :=
  match bs with
  | [] => none
  | n :: rest =>
      if n ≤ rest.length then
        some (String.mk ((rest.take n).map Char.ofNat), rest.drop n)
      else none

/-- Decoding of an integer: read the sign token, then the absolute
value. -/
def decodeInt : List Nat → Option (Int × List Nat)
  | 0 :: n :: rest => some ((n : Int), rest)
  | 1 :: n :: rest => some (-(n : Int), rest)
  | _ => none

mutual
/-- Decoding of one value from the front of a byte string, returning the
remaining bytes.  `fuel` bounds the nesting depth, as the decoder of a
self-describing stream must recurse into sub-values. -/
def decodeV : Nat → List Nat → Option (Value × List Nat)
  | 0, _ => none
  | _ + 1, 0 :: rest =>
      match decodeInt rest with
      | some (i, r) => some (.vint i, r)
      | none => none
  | _ + 1, 1 :: rest =>
      match decodeStr rest with
      | some (s, r) => some (.vstr s, r)
      | none => none
  | _ + 1, 2 :: b :: rest => some (.vbool (b == 1), rest)
  | fuel + 1, 3 :: rest =>
      match decodeF fuel rest with
      | some (fs, r) => some (.vmap fs, r)
      | none => none
  | _ + 1, _ => none

/-- Decoding of record fields, driven by the `0`/`1` markers. -/
def decodeF : Nat → List Nat → Option (Fields × List Nat)
  | 0, _ => none
  | _ + 1, 0 :: rest => some (.fnil, rest)
  | fuel + 1, 1 :: rest =>
      match decodeStr rest with
      | some (k, r1) =>
          match decodeV fuel r1 with
          | some (v, r2) =>
              match decodeF fuel r2 with
              | some (fs, r3) => some (.fcons k v fs, r3)
              | none => none
          | none => none
      | none => none
  | _ + 1, _ => none
end

mutual
/-- Nesting measure of a value: enough decoder fuel for the value. -/
def sizeV : Value → Nat
  | .vint _ => 1
  | .vstr _ => 1
  | .vbool _ => 1
  | .vmap fs => sizeF fs + 1

/-- Nesting measure of record fields. -/
def sizeF : Fields → Nat
  | .fnil => 1
  | .fcons _ v fs => sizeV v + sizeF fs + 1
end

/-- Top-level encode of the codec model. -/
def encode (v : Value) : List Nat := encodeV v

/-- Top-level decode of the codec model: like `gob.Decoder.Decode`, it
reads one value from the front of the stream.  The fuel `bs.length + 1`
always suffices, since each nesting level consumes at least one token. -/
def decode (bs : List Nat) : Option Value :=
  match decodeV (bs.length + 1) bs with
  | some (v, _) => some v
  | none => none

theorem map_ofNat_toNat (l : List Char) : l.map (fun c => Char.ofNat c.toNat) = l := by
  induction l with
  | nil => rfl
  | cons c cs ih => simp [Char.ofNat_toNat, ih]

theorem decodeStr_encodeStr (s : String) (rest : List Nat) :
    decodeStr (encodeStr s ++ rest) = some (s, rest) := by
  have hlen : (s.data.map Char.toNat).length = s.length := by
    rw [List.length_map]; rfl
  have htake : ((s.data.map Char.toNat) ++ rest).take s.length = s.data.map Char.toNat :=
    List.take_left' hlen
  have hdrop : ((s.data.map Char.toNat) ++ rest).drop s.length = rest :=
    List.drop_left' hlen
  have hle : s.length ≤ ((s.data.map Char.toNat) ++ rest).length := by
    rw [List.length_append, hlen]; omega
  rw [show encodeStr s ++ rest = s.length :: ((s.data.map Char.toNat) ++ rest) from by
    simp [encodeStr]]
  rw [decodeStr]
  rw [if_pos hle, htake, hdrop, List.map_map]
  rw [show s.data.map (Char.ofNat ∘ Char.toNat) = s.data from map_ofNat_toNat s.data]

theorem decodeInt_encodeInt (i : Int) (rest : List Nat) :
    decodeInt (encodeInt i ++ rest) = some (i, rest) := by
  by_cases h : i < 0
  · have h1 : encodeInt i ++ rest = 1 :: i.natAbs :: rest := by
      simp [encodeInt, if_pos h]
    rw [h1]
    simp only [decodeInt]
    have h2 : -(i.natAbs : Int) = i := by omega
    rw [h2]
  · have h1 : encodeInt i ++ rest = 0 :: i.natAbs :: rest := by
      simp [encodeInt, if_neg h]
    rw [h1]
    simp only [decodeInt]
    have h2 : ((i.natAbs : Int)) = i := by omega
    rw [h2]

mutual
theorem decodeV_encodeV (v : Value) :
    ∀ fuel rest, sizeV v ≤ fuel → decodeV fuel (encodeV v ++ rest) = some (v, rest) := by
  match v with
  | .vint i =>
      intro fuel rest h
      match fuel with
      | 0 => exact absurd h (by simp [sizeV])
      | fuel + 1 =>
          simp only [encodeV, List.cons_append, decodeV, decodeInt_encodeInt]
  | .vstr s =>
      intro fuel rest h
      match fuel with
      | 0 => exact absurd h (by simp [sizeV])
      | fuel + 1 =>
          simp only [encodeV, List.cons_append, decodeV, decodeStr_encodeStr]
  | .vbool b =>
      intro fuel rest h
      match fuel with
      | 0 => exact absurd h (by simp [sizeV])
      | fuel + 1 =>
          cases b <;> simp [encodeV, decodeV]
  | .vmap fs =>
      intro fuel rest h
      match fuel with
      | 0 => exact absurd h (by simp [sizeV])
      | fuel + 1 =>
          have hf : sizeF fs ≤ fuel := by
            simp only [sizeV] at h; omega
          simp only [encodeV, List.cons_append, decodeV,
            decodeF_encodeF fs fuel rest hf]

theorem decodeF_encodeF (fs : Fields) :
    ∀ fuel rest, sizeF fs ≤ fuel → decodeF fuel (encodeF fs ++ rest) = some (fs, rest) := by
  match fs with
  | .fnil =>
      intro fuel rest h
      match fuel with
      | 0 => exact absurd h (by simp [sizeF])
      | fuel + 1 => simp [encodeF, decodeF]
  | .fcons k v fs' =>
      intro fuel rest h
      match fuel with
      | 0 => exact absurd h (by simp [sizeF])
      | fuel + 1 =>
          have hv : sizeV v ≤ fuel := by simp only [sizeF] at h; omega
          have hf : sizeF fs' ≤ fuel := by simp only [sizeF] at h; omega
          have harr : encodeF (Fields.fcons k v fs') ++ rest
              = 1 :: (encodeStr k ++ (encodeV v ++ (encodeF fs' ++ rest))) := by
            simp [encodeF]
          rw [harr]
          simp only [decodeF, decodeStr_encodeStr k (encodeV v ++ (encodeF fs' ++ rest)),
            decodeV_encodeV v fuel (encodeF fs' ++ rest) hv,
            decodeF_encodeF fs' fuel rest hf]
end

mutual
theorem sizeV_le_length (v : Value) : sizeV v ≤ (encodeV v).length := by
  match v with
  | .vint i => simp [sizeV, encodeV, encodeInt]
  | .vstr s => simp [sizeV, encodeV, encodeStr]
  | .vbool b => simp [sizeV, encodeV]
  | .vmap fs =>
      have := sizeF_le_length fs
      simp only [sizeV, encodeV, List.length_cons]
      omega

theorem sizeF_le_length (fs : Fields) : sizeF fs ≤ (encodeF fs).length := by
  match fs with
  | .fnil => simp [sizeF, encodeF]
  | .fcons k v fs' =>
      have hv := sizeV_le_length v
      have hf := sizeF_le_length fs'
      simp only [sizeF, encodeF, List.length_cons, List.length_append]
      omega
end

/-- Round trip of the codec model: decoding an encoded value yields the
value back. -/
theorem decode_encode (v : Value) : decode (encode v) = some v := by
  unfold decode encode
  have h : sizeV v ≤ (encodeV v).length + 1 :=
    Nat.le_succ_of_le (sizeV_le_length v)
  have := decodeV_encodeV v ((encodeV v).length + 1) [] h
  rw [List.append_nil] at this
  rw [this]

/-- Modelled from the spec: a Go `interface{}` argument handed to
`gob.Encoder.Encode`.  Either a value of a supported structural shape,
or a value gob cannot encode (such as a channel or function), on which
encoding fails. -/
inductive GoValue where
  | supported : Value → GoValue
  | unsupported : GoValue
deriving DecidableEq, Repr

/-- Modelled from the spec: `gob.Encoder.Encode` either produces the
encoded bytes of a supported value or fails. -/
def gobEncode : GoValue → Option (List Nat)
  | .supported v => some (encodeV v)
  | .unsupported => none

/-! ## Store adapter

The go-redis client is an external collaborator; the model is its
interface as the source uses it inside one attempt: key contents
(`GET`, where an absent key yields `redis.Nil`) and the outcome of
`WATCH` registrations (which can fail only for transport reasons). -/

structure Store where
  data : List (String × List Nat)
  watchOK : String → Bool

/-- Association lookup with Go map semantics: the binding added last
wins (entries are added at the front). -/
def alookup (key : String) : List (String × List Nat) → Option (List Nat)
  | [] => none
  | (k, v) :: rest => if key = k then some v else alookup key rest

/-- `GET key` of the store: `redis.Nil` (modelled as `none`) when
absent. -/
def Store.get (st : Store) (key : String) : Option (List Nat) :=
  alookup key st.data

/-- Store interactions performed by an operation: keys registered with
`WATCH`, and keys fetched with `GET`. -/
structure Effects where
  watched : List String
  fetched : List String
deriving DecidableEq, Repr

/-- No store interaction. -/
def Effects.none : Effects := ⟨[], []⟩

/-- Concatenation of effect traces. -/
def Effects.app (a b : Effects) : Effects :=
  ⟨a.watched ++ b.watched, a.fetched ++ b.fetched⟩

/-! ## Transaction context

`Transaction` is the struct of `database.go`: the per-attempt read/write
cache `cache` (Go `map[string]string`) and the dirty set `written`
(Go `map[string]struct{}`).  The `tx` handle is represented by the
`Store` argument of each operation.  Go maps are reference values, so
mutations made through the value receiver are visible to the caller;
here each operation returns the updated `Transaction`. -/

structure Transaction where
  cache : List (String × List Nat)
  written : List String
deriving DecidableEq, Repr

/-- Go map assignment `m[k] = v`. -/
def mapSet (key : String) (v : List Nat) (m : List (String × List Nat)) :
    List (String × List Nat) :=
  (key, v) :: m

/-- Go set insertion `m[k] = struct{}{}`. -/
def setAdd (key : String) (s : List String) : List String :=
  if key ∈ s then s else key :: s

/-- `Transaction.Exists` of `database.go` (lines 85–93): if the key is
not cached, `WATCH` it and report `false` exactly when the registration
fails, `true` otherwise; a cached key reports `true` with no store
interaction. -/
def Transaction.Exists (st : Store) (t : Transaction) (key : String) :
    Bool × Transaction × Effects :=
  match alookup key t.cache with
  | Option.none =>
      if st.watchOK key then (true, t, ⟨[key], []⟩)
      else (false, t, ⟨[key], []⟩)
  | some _ => (true, t, Effects.none)

/-- Outcome of `Transaction.Read`: either a closure that returns a fixed
error on every destination, or the deferred gob decode over the cached
bytes. -/
inductive ReadResult where
  | failure : DBError → ReadResult
  | decoder : List Nat → ReadResult
deriving DecidableEq, Repr

/-- Invoking the closure returned by `Read` on a destination: the fixed
error, or the result of decoding the cached bytes. -/
def ReadResult.run : ReadResult → Except DBError Value
  | .failure e => .error e
  | .decoder bs =>
      match decode bs with
      | some v => .ok v
      | Option.none => .error .decodeFailed

/-- `Transaction.Read` of `database.go` (lines 96–109): on a cache miss,
`WATCH` the key (returning the watch error as a closure on failure),
`GET` it (returning the `redis.Nil` error as a closure when absent) and
cache the fetched bytes; then return the deferred decode over the cached
bytes. -/
def Transaction.Read (st : Store) (t : Transaction) (key : String) :
    ReadResult × Transaction × Effects :=
  match alookup key t.cache with
  | Option.none =>
      if st.watchOK key then
        match st.get key with
        | some value =>
            (.decoder value, { t with cache := mapSet key value t.cache },
              ⟨[key], [key]⟩)
        | Option.none => (.failure .notFound, t, ⟨[key], [key]⟩)
      else (.failure .watchFailed, t, ⟨[key], []⟩)
  | some value => (.decoder value, t, Effects.none)

/-- The closure returned by `Transaction.Write` (lines 112–124): it
captures the key and the gob buffer created at the `Write` call. -/
structure WriteClosure where
  key : String
  buffer : List Nat
deriving DecidableEq, Repr

/-- `Transaction.Write` of `database.go`: allocates an empty buffer and
an encoder over it and returns the deferred encode closure. -/
def Transaction.Write (t : Transaction) (key : String) : WriteClosure :=
  ⟨key, []⟩

/-- Invoking the closure returned by `Write` with a value: encode it
(appending to the captured buffer); on failure return the encode error
with nothing changed; on success store the buffer contents in the cache
under the key and mark the key dirty.  No store interaction occurs
either way. -/
def WriteClosure.invoke (w : WriteClosure) (t : Transaction) (e : GoValue) :
    Except DBError Unit × WriteClosure × Transaction × Effects :=
  match gobEncode e with
  | Option.none => (.error .encodeFailed, w, t, Effects.none)
  | some bs =>
      let buf := w.buffer ++ bs
      (.ok (), { w with buffer := buf },
        { cache := mapSet w.key buf t.cache, written := setAdd w.key t.written },
        Effects.none)

/-! ## Sequences of context operations within one attempt

A deep embedding of what the caller's function can do with the
transaction handle, used to state per-attempt trace properties.  A
`wri` step is a `Write` call whose closure is invoked immediately with
the given value. -/

inductive Op where
  | exi (key : String)
  | rea (key : String)
  | wri (key : String) (v : GoValue)
deriving DecidableEq, Repr

/-- One context operation. -/
def stepOp (st : Store) (t : Transaction) : Op → Transaction × Effects
  | .exi key => (Transaction.Exists st t key).2
  | .rea key => (Transaction.Read st t key).2
  | .wri key v => ((Transaction.Write t key).invoke t v).2.2

/-- A sequence of context operations, with the accumulated store
effects. -/
def runOps (st : Store) (t : Transaction) : List Op → Transaction × Effects
  | [] => (t, Effects.none)
  | op :: ops =>
      let r := stepOp st t op
      let r' := runOps st r.1 ops
      (r'.1, Effects.app r.2 r'.2)

/-- The fresh transaction context constructed for every attempt
(lines 58–61 of `database.go`): empty cache, empty dirty set. -/
def freshTransaction : Transaction := ⟨[], []⟩

/-! ## Transaction coordinator

`Transact` (lines 54–82).  The environment models everything external
to the loop: what the caller's function does to the fresh context on
each attempt (its returned error and the final context state), and
whether the `EXEC` of that attempt's transactional pipeline succeeds or
aborts with the optimistic-lock conflict.  Indexing by the attempt
number reflects that the function and the store may behave differently
across attempts (other processes mutate keys; the function may close
over outside state). -/

structure Env where
  f : Nat → Transaction → Option DBError × Transaction
  commitOK : Nat → Bool

/-- Result of one attempt: the error `db.Watch` returns for it, whether
the `TxPipelined` commit step was reached, and the key/value pairs the
pipeline applied to the store (empty when the `EXEC` aborted). -/
structure AttemptResult where
  err : Option DBError
  commitAttempted : Bool
  applied : List (String × List Nat)
deriving DecidableEq, Repr

/-- One iteration of the retry loop (lines 57–75): build a fresh
context, run the caller's function — an error aborts the attempt before
the pipeline —, then queue `SET k cache[k]` for every dirty key and
`EXEC`; a conflict aborts the commit with nothing applied. -/
def attemptRun (env : Env) (i : Nat) : AttemptResult :=
  match env.f i freshTransaction with
  | (some e, _) => ⟨some e, false, []⟩
  | (Option.none, t) =>
      let sets := t.written.map fun k => (k, (alookup k t.cache).getD [])
      if env.commitOK i then ⟨Option.none, true, sets⟩
      else ⟨some .conflict, true, []⟩

/-- Line 17 of `database.go`. -/
def maxDatabaseRetryAttempts : Nat := 3

/-- Result of `Transact`: the returned error, how many attempts ran,
what the successful commit applied to the store (empty if none
committed), and whether the max-retries message was logged. -/
structure TransactResult where
  err : Option DBError
  attempts : Nat
  applied : List (String × List Nat)
  loggedExhausted : Bool
deriving DecidableEq, Repr

/-- The retry loop of `Transact`: `i` is the loop counter, the second
argument the remaining attempts, the third the `err` variable of the
Go function.  A nil attempt error returns immediately; exhaustion falls
through to the log statement and returns the last error. -/
def transactAux (env : Env) (i : Nat) : Nat → Option DBError → TransactResult
  | 0, lastErr => ⟨lastErr, i, [], true⟩
  | n + 1, _ =>
      let r := attemptRun env i
      match r.err with
      | Option.none => ⟨Option.none, i + 1, r.applied, false⟩
      | some e => transactAux env (i + 1) n (some e)

/-- `Transact` of `database.go` (lines 54–82). -/
def Transact (env : Env) : TransactResult :=
  transactAux env 0 maxDatabaseRetryAttempts Option.none

/-- Store contents after applying a list of `SET` operations in order
(later sets override earlier ones). -/
def applySets (data : List (String × List Nat)) (sets : List (String × List Nat)) :
    List (String × List Nat) :=
  sets.foldl (fun d kv => mapSet kv.1 kv.2 d) data

/-! ## Concrete instances used to evaluate the model -/

/-- An empty store with a healthy connection: no key was ever written,
every `WATCH` registration succeeds. -/
def emptyStore : Store := ⟨[], fun _ => true⟩

/-- A healthy store holding one encoded value under `"k"`. -/
def storeK : Store := ⟨[("k", encodeV (.vbool true))], fun _ => true⟩

/-- A context that already caches bytes for `"k"`. -/
def cachedK : Transaction := ⟨[("k", [42])], []⟩

/-- Read `"k"`, check it, read it again. -/
def opsK : List Op := [.rea "k", .exi "k", .rea "k"]

/-- An environment whose caller function fails on every attempt with a
distinct business error, before any write. -/
def envBizFail : Env := ⟨fun i _ => (some (.business i), freshTransaction), fun _ => true⟩

/-- An environment whose caller function fails on every attempt and
whose commits would all conflict. -/
def envAllFail : Env := ⟨fun i t => (some (.business i), t), fun _ => false⟩

/-- An environment whose caller function writes nothing and whose first
commit succeeds. -/
def envFirstOK : Env := ⟨fun _ t => (Option.none, t), fun _ => true⟩

/-- An environment whose caller function succeeds, leaving one dirty
key `"k"` with cached bytes `[7]`, and whose commit succeeds. -/
def envOneWrite : Env :=
  ⟨fun _ _ => (Option.none, ⟨[("k", [7])], ["k"]⟩), fun _ => true⟩

/-- An environment whose caller function is the identity. -/
def envPlain : Env := ⟨fun _ t => (Option.none, t), fun _ => true⟩

/-- An environment whose caller function errors on any context that
already contains a dirty key — it behaves like `envPlain` on the fresh
context but differs elsewhere. -/
def envDirty : Env :=
  ⟨fun _ t => (if t.written.isEmpty then Option.none else some .notFound, t),
    fun _ => true⟩

/-- A context with one cached, dirty key `"a"`. -/
def dirtyA : Transaction := ⟨[("a", [1])], ["a"]⟩

/-! ## Helper lemmas -/

theorem alookup_mapSet (k k' : String) (v : List Nat) (c : List (String × List Nat)) :
    alookup k (mapSet k' v c) = if k = k' then some v else alookup k c := by
  simp [mapSet, alookup]

theorem mem_setAdd (k k' : String) (s : List String) :
    k ∈ setAdd k' s ↔ k = k' ∨ k ∈ s := by
  unfold setAdd
  split
  · rename_i hmem
    constructor
    · exact Or.inr
    · rintro (rfl | h) <;> assumption
  · simp [List.mem_cons]

theorem alookup_eq_none (k : String) (l : List (String × List Nat)) :
    alookup k l = Option.none ↔ ∀ v, (k, v) ∉ l := by
  induction l with
  | nil => simp [alookup]
  | cons kv rest ih =>
      obtain ⟨k', v'⟩ := kv
      by_cases h : k = k'
      · subst h
        simp only [alookup, if_pos rfl]
        constructor
        · intro hnone; exact Option.noConfusion hnone
        · intro hall
          exact absurd (List.mem_cons_self _ _) (hall v')
      · simp only [alookup, if_neg h, ih, List.mem_cons]
        constructor
        · intro hall v hv
          rcases hv with hv | hv
          · exact h (congrArg Prod.fst hv)
          · exact hall v hv
        · intro hall v hv
          exact hall v (Or.inr hv)

theorem alookup_applySets (k : String) :
    ∀ sets data, alookup k sets = Option.none →
      alookup k (applySets data sets) = alookup k data := by
  intro sets
  induction sets with
  | nil => intro data _; rfl
  | cons kv rest ih =>
      intro data hnone
      obtain ⟨k', v'⟩ := kv
      have hne : ¬ k = k' := by
        intro h
        simp [alookup, h] at hnone
      have hrest : alookup k rest = Option.none := by
        simpa [alookup, if_neg hne] using hnone
      show alookup k (applySets (mapSet k' v' data) rest) = alookup k data
      rw [ih (mapSet k' v' data) hrest, alookup_mapSet, if_neg hne]

theorem Exists_cached (st : Store) (t : Transaction) (key : String) (value : List Nat)
    (hc : alookup key t.cache = some value) :
    Transaction.Exists st t key = (true, t, Effects.none) := by
  simp [Transaction.Exists, hc]

theorem Exists_watch_ok (st : Store) (t : Transaction) (key : String)
    (hc : alookup key t.cache = Option.none) (hw : st.watchOK key = true) :
    Transaction.Exists st t key = (true, t, ⟨[key], []⟩) := by
  simp [Transaction.Exists, hc, hw]

theorem Exists_watch_fail (st : Store) (t : Transaction) (key : String)
    (hc : alookup key t.cache = Option.none) (hw : st.watchOK key = false) :
    Transaction.Exists st t key = (false, t, ⟨[key], []⟩) := by
  simp [Transaction.Exists, hc, hw]

theorem Read_cached (st : Store) (t : Transaction) (key : String) (value : List Nat)
    (hc : alookup key t.cache = some value) :
    Transaction.Read st t key = (.decoder value, t, Effects.none) := by
  simp [Transaction.Read, hc]

theorem Read_watch_fail (st : Store) (t : Transaction) (key : String)
    (hc : alookup key t.cache = Option.none) (hw : st.watchOK key = false) :
    Transaction.Read st t key = (.failure .watchFailed, t, ⟨[key], []⟩) := by
  simp [Transaction.Read, hc, hw]

theorem Read_hit (st : Store) (t : Transaction) (key : String) (value : List Nat)
    (hc : alookup key t.cache = Option.none) (hw : st.watchOK key = true)
    (hg : st.get key = some value) :
    Transaction.Read st t key =
      (.decoder value, { t with cache := mapSet key value t.cache }, ⟨[key], [key]⟩) := by
  simp [Transaction.Read, hc, hw, hg]

theorem Read_miss (st : Store) (t : Transaction) (key : String)
    (hc : alookup key t.cache = Option.none) (hw : st.watchOK key = true)
    (hg : st.get key = Option.none) :
    Transaction.Read st t key = (.failure .notFound, t, ⟨[key], [key]⟩) := by
  simp [Transaction.Read, hc, hw, hg]

theorem invoke_fail (w : WriteClosure) (t : Transaction) (v : GoValue)
    (hg : gobEncode v = Option.none) :
    w.invoke t v = (.error .encodeFailed, w, t, Effects.none) := by
  simp [WriteClosure.invoke, hg]

theorem invoke_ok (w : WriteClosure) (t : Transaction) (v : GoValue) (bs : List Nat)
    (hg : gobEncode v = some bs) :
    w.invoke t v = (.ok (), ⟨w.key, w.buffer ++ bs⟩,
      { cache := mapSet w.key (w.buffer ++ bs) t.cache,
        written := setAdd w.key t.written }, Effects.none) := by
  simp [WriteClosure.invoke, hg]

theorem stepOp_cached (st : Store) (t : Transaction) (op : Op) (k : String)
    (h : (alookup k t.cache).isSome = true) :
    (alookup k (stepOp st t op).1.cache).isSome = true ∧
      (stepOp st t op).2.fetched.count k = 0 := by
  cases op with
  | exi key =>
      rcases hc : alookup key t.cache with _ | value
      · cases hw : st.watchOK key
        · simp only [stepOp, Exists_watch_fail st t key hc hw]
          exact ⟨h, rfl⟩
        · simp only [stepOp, Exists_watch_ok st t key hc hw]
          exact ⟨h, rfl⟩
      · simp only [stepOp, Exists_cached st t key value hc]
        exact ⟨h, rfl⟩
  | rea key =>
      rcases hc : alookup key t.cache with _ | value
      · have hne : ¬ k = key := by
          intro heq
          rw [heq, hc] at h
          exact Bool.noConfusion h
        have hcount : List.count k [key] = 0 := by
          simp [List.count_cons, hne]
        cases hw : st.watchOK key
        · simp only [stepOp, Read_watch_fail st t key hc hw]
          exact ⟨h, rfl⟩
        · rcases hg : st.get key with _ | value
          · simp only [stepOp, Read_miss st t key hc hw hg]
            exact ⟨h, hcount⟩
          · simp only [stepOp, Read_hit st t key value hc hw hg]
            refine ⟨?_, hcount⟩
            simp only [alookup_mapSet, if_neg hne]
            exact h
      · simp only [stepOp, Read_cached st t key value hc]
        exact ⟨h, rfl⟩
  | wri key v =>
      rcases hg : gobEncode v with _ | bs
      · simp only [stepOp, invoke_fail (Transaction.Write t key) t v hg]
        exact ⟨h, rfl⟩
      · simp only [stepOp, invoke_ok (Transaction.Write t key) t v bs hg]
        refine ⟨?_, rfl⟩
        simp only [Transaction.Write, alookup_mapSet]
        split
        · rfl
        · exact h

theorem runOps_cached (st : Store) (ops : List Op) :
    ∀ t k, (alookup k t.cache).isSome = true →
      (alookup k (runOps st t ops).1.cache).isSome = true ∧
        (runOps st t ops).2.fetched.count k = 0 := by
  induction ops with
  | nil => intro t k h; exact ⟨h, rfl⟩
  | cons op ops ih =>
      intro t k h
      have hstep := stepOp_cached st t op k h
      have hrest := ih (stepOp st t op).1 k hstep.1
      refine ⟨hrest.1, ?_⟩
      show (Effects.app (stepOp st t op).2 (runOps st (stepOp st t op).1 ops).2).fetched.count k = 0
      simp [Effects.app, List.count_append, hstep.2, hrest.2]

theorem Exists_effects (st : Store) (t : Transaction) (key : String) :
    (Transaction.Exists st t key).2.1 = t ∧
      (Transaction.Exists st t key).2.2.fetched = [] := by
  rcases hc : alookup key t.cache with _ | v
  · cases hw : st.watchOK key
    · rw [Exists_watch_fail st t key hc hw]; exact ⟨rfl, rfl⟩
    · rw [Exists_watch_ok st t key hc hw]; exact ⟨rfl, rfl⟩
  · rw [Exists_cached st t key v hc]; exact ⟨rfl, rfl⟩

theorem runOps_fetch_le_one (st : Store) (k : String)
    (hw : st.watchOK k = true) (hg : (st.get k).isSome = true) :
    ∀ ops t, (runOps st t ops).2.fetched.count k ≤ 1 := by
  intro ops
  induction ops with
  | nil => intro t; simp [runOps, Effects.none]
  | cons op ops ih =>
      intro t
      show (Effects.app (stepOp st t op).2 (runOps st (stepOp st t op).1 ops).2).fetched.count k ≤ 1
      simp only [Effects.app, List.count_append]
      cases op with
      | exi key =>
          have he := Exists_effects st t key
          simp only [stepOp]
          rw [he.2, he.1]
          simpa using ih t
      | rea key =>
          by_cases hkey : k = key
          · subst hkey
            rcases hc : alookup k t.cache with _ | v
            · obtain ⟨value, hval⟩ := Option.isSome_iff_exists.mp hg
              simp only [stepOp, Read_hit st t k value hc hw hval]
              have hcached : (alookup k (mapSet k value t.cache)).isSome = true := by
                simp [alookup_mapSet]
              have hrest := (runOps_cached st ops
                { t with cache := mapSet k value t.cache } k hcached).2
              simp only [hrest]
              simp [List.count_cons]
            · simp only [stepOp, Read_cached st t k v hc]
              simpa [Effects.none] using ih t
          · have hcount0 : List.count k [key] = 0 := by
              simp [List.count_cons, hkey]
            rcases hc : alookup key t.cache with _ | v
            · cases hw' : st.watchOK key
              · simp only [stepOp, Read_watch_fail st t key hc hw']
                simpa using ih t
              · rcases hgk : st.get key with _ | value
                · simp only [stepOp, Read_miss st t key hc hw' hgk]
                  rw [hcount0]
                  simpa using ih t
                · simp only [stepOp, Read_hit st t key value hc hw' hgk]
                  rw [hcount0]
                  simpa using ih { t with cache := mapSet key value t.cache }
            · simp only [stepOp, Read_cached st t key v hc]
              simpa [Effects.none] using ih t
      | wri key v =>
          rcases hgv : gobEncode v with _ | bs
          · simp only [stepOp, invoke_fail (Transaction.Write t key) t v hgv]
            simpa [Effects.none] using ih t
          · simp only [stepOp, invoke_ok (Transaction.Write t key) t v bs hgv]
            simpa [Effects.none] using ih _

theorem attemptRun_ferr (env : Env) (i : Nat) (e : DBError) (t : Transaction)
    (hf : env.f i freshTransaction = (some e, t)) :
    attemptRun env i = ⟨some e, false, []⟩ := by
  simp [attemptRun, hf]

theorem attemptRun_commit (env : Env) (i : Nat) (t : Transaction)
    (hf : env.f i freshTransaction = (Option.none, t)) (hc : env.commitOK i = true) :
    attemptRun env i =
      ⟨Option.none, true, t.written.map fun k => (k, (alookup k t.cache).getD [])⟩ := by
  simp [attemptRun, hf, hc]

theorem attemptRun_conflict (env : Env) (i : Nat) (t : Transaction)
    (hf : env.f i freshTransaction = (Option.none, t)) (hc : env.commitOK i = false) :
    attemptRun env i = ⟨some .conflict, true, []⟩ := by
  simp [attemptRun, hf, hc]

theorem transactAux_step (env : Env) (i n : Nat) (lastErr : Option DBError) :
    transactAux env i (n + 1) lastErr =
      match (attemptRun env i).err with
      | Option.none => ⟨Option.none, i + 1, (attemptRun env i).applied, false⟩
      | some e => transactAux env (i + 1) n (some e) := rfl

theorem transactAux_err (env : Env) (i n : Nat) (lastErr : Option DBError) (e : DBError)
    (hv : (attemptRun env i).err = some e) :
    transactAux env i (n + 1) lastErr = transactAux env (i + 1) n (some e) := by
  rw [transactAux_step, hv]

theorem transactAux_ok (env : Env) (i n : Nat) (lastErr : Option DBError)
    (hv : (attemptRun env i).err = Option.none) :
    transactAux env i (n + 1) lastErr =
      ⟨Option.none, i + 1, (attemptRun env i).applied, false⟩ := by
  rw [transactAux_step, hv]

theorem transactAux_applied (env : Env) :
    ∀ n i lastErr, (transactAux env i n lastErr).applied = [] ∨
      ∃ j, (transactAux env i n lastErr).applied = (attemptRun env j).applied := by
  intro n
  induction n with
  | zero => intro i le; left; rfl
  | succ n ih =>
      intro i le
      rcases hv : (attemptRun env i).err with _ | e
      · right
        rw [transactAux_ok env i n le hv]
        exact ⟨i, rfl⟩
      · rw [transactAux_err env i n le e hv]
        exact ih (i + 1) (some e)

theorem transact_applied (env : Env) :
    (Transact env).applied = [] ∨
      ∃ j, (Transact env).applied = (attemptRun env j).applied :=
  transactAux_applied env 3 0 Option.none

/-! ## Claims -/

/-- C1: the claim says `Exists(K)` reports whether K exists in the
store, returning false for a key never written.  The code violates
this: `Exists` only issues a `WATCH`, which succeeds regardless of the
key's presence, so on an empty store with a healthy connection
`Exists "missing"` returns `true` even though the store holds nothing
under `"missing"`.  This contradicts the function's own documentation
("Exists checks for the existence of a key in the database"). -/
theorem exists_true_for_absent_key :
    (Transaction.Exists emptyStore freshTransaction "missing").1 = true ∧
      emptyStore.get "missing" = Option.none :=
  ⟨rfl, rfl⟩

/-- C2 counterexample: the claim says every key is fetched from the
store at most once per attempt.  On an empty store, two `Read`s of the
absent key `"k"` in one attempt issue two `GET` fetches, because a
failed fetch does not populate the cache. -/
theorem read_refetches_counterexample :
    ¬ ((runOps emptyStore freshTransaction
        [Op.rea "k", Op.rea "k"]).2.fetched.count "k" ≤ 1) := by
  decide

/-- C2 (amended): within one attempt, a key whose `WATCH` succeeds and
which is present in the store is fetched at most once across any
sequence of `Read`/`Write`/`Exists` operations; and once a key is in
the cache — which happens on a successful `Read` fetch or a successful
`Write`-closure invocation, not on `Exists` or on a failed `Read` — no
subsequent operation fetches it again. -/
theorem fetch_at_most_once_amended (st : Store) (t : Transaction) (ops : List Op)
    (k : String) (hw : st.watchOK k = true) (hg : (st.get k).isSome = true) :
    (runOps st t ops).2.fetched.count k ≤ 1 ∧
      ((alookup k t.cache).isSome = true → (runOps st t ops).2.fetched.count k = 0) :=
  ⟨runOps_fetch_le_one st k hw hg ops t, fun h => (runOps_cached st ops t k h).2⟩

/-- C2 witness: on a healthy store holding `"k"`, the run
read-check-read fetches `"k"` at most once, and with `"k"` already
cached it fetches nothing. -/
theorem fetch_at_most_once_witness :
    (runOps storeK freshTransaction opsK).2.fetched.count "k" ≤ 1 ∧
      (runOps storeK cachedK opsK).2.fetched.count "k" = 0 :=
  ⟨(fetch_at_most_once_amended storeK freshTransaction opsK "k" rfl (by decide)).1,
   (fetch_at_most_once_amended storeK cachedK opsK "k" rfl
      (by decide)).2 (by decide)⟩

/-- C3: own-write visibility — invoking the closure returned by
`Write(K)` with a supported value V succeeds, and a `Read(K)` in the
same attempt consults only the cache (no store interaction at all, in
particular no fetch) and returns a deferred decode that succeeds with a
value equal to V. -/
theorem own_write_visibility (st : Store) (t : Transaction) (key : String) (v : Value) :
    ((Transaction.Write t key).invoke t (.supported v)).1 = .ok () ∧
      Transaction.Read st ((Transaction.Write t key).invoke t (.supported v)).2.2.1 key =
        (.decoder (encodeV v),
          ((Transaction.Write t key).invoke t (.supported v)).2.2.1, Effects.none) ∧
      (ReadResult.decoder (encodeV v)).run = .ok v := by
  have hg : gobEncode (.supported v) = some (encodeV v) := rfl
  have hinv := invoke_ok (Transaction.Write t key) t (.supported v) (encodeV v) hg
  refine ⟨by rw [hinv], ?_, ?_⟩
  · rw [hinv]
    have hc : alookup key (mapSet key (encodeV v) t.cache) = some (encodeV v) := by
      simp [alookup_mapSet]
    exact Read_cached st _ key (encodeV v) hc
  · show ReadResult.run (ReadResult.decoder (encodeV v)) = .ok v
    rw [show encodeV v = encode v from rfl]
    show (match decode (encode v) with
      | some w => Except.ok w
      | Option.none => Except.error DBError.decodeFailed) = Except.ok v
    rw [decode_encode]

/-- C4: atomicity on business failure — an attempt whose caller
function returns an error never reaches the commit step and applies no
`SET` to the store, and if no attempt's commit applies a binding for a
key, the store content at that key is unchanged after `Transact`
returns. -/
theorem business_failure_atomicity (env : Env) :
    (∀ i e t, env.f i freshTransaction = (some e, t) →
      attemptRun env i = ⟨some e, false, []⟩) ∧
    (∀ data k, (∀ j, alookup k (attemptRun env j).applied = Option.none) →
      alookup k (applySets data (Transact env).applied) = alookup k data) := by
  constructor
  · intro i e t hf
    exact attemptRun_ferr env i e t hf
  · intro data k hall
    rcases transact_applied env with h | ⟨j, hj⟩
    · rw [h]
      rfl
    · rw [hj]
      exact alookup_applySets k _ data (hall j)

/-- C4 witness: with a caller function failing on every attempt, the
second attempt commits nothing and the store binding for `"x"` is
unchanged after `Transact`. -/
theorem business_failure_atomicity_witness :
    attemptRun envBizFail 1 = ⟨some (.business 1), false, []⟩ ∧
      alookup "x" (applySets [("x", [9])] (Transact envBizFail).applied) =
        alookup "x" [("x", [9])] :=
  ⟨(business_failure_atomicity envBizFail).1 1 (.business 1) freshTransaction rfl,
   (business_failure_atomicity envBizFail).2 [("x", [9])] "x" (fun _ => rfl)⟩

/-- C5: retry budget exhaustion — if every one of the 3 attempts fails,
`Transact` performs exactly 3 attempts, logs that the budget was
exhausted, and returns the last attempt's error verbatim; conversely
the first attempt whose error is nil makes `Transact` return
immediately: no error, no further attempts, no exhaustion log. -/
theorem retry_budget (env : Env) :
    ((∀ i, i < 3 → (attemptRun env i).err.isSome = true) →
      Transact env = ⟨(attemptRun env 2).err, 3, [], true⟩) ∧
    (∀ i, i < 3 → (attemptRun env i).err = Option.none →
      (∀ j, j < i → (attemptRun env j).err.isSome = true) →
      Transact env = ⟨Option.none, i + 1, (attemptRun env i).applied, false⟩) := by
  constructor
  · intro h
    obtain ⟨v0, h0⟩ := Option.isSome_iff_exists.mp (h 0 (by omega))
    obtain ⟨v1, h1⟩ := Option.isSome_iff_exists.mp (h 1 (by omega))
    obtain ⟨v2, h2⟩ := Option.isSome_iff_exists.mp (h 2 (by omega))
    show transactAux env 0 3 Option.none = ⟨(attemptRun env 2).err, 3, [], true⟩
    rw [h2]
    rw [transactAux_err env 0 2 Option.none v0 h0,
      transactAux_err env 1 1 (some v0) v1 h1,
      transactAux_err env 2 0 (some v1) v2 h2]
    rfl
  · intro i hi h0 hprev
    interval_cases i
    · show transactAux env 0 3 Option.none = _
      rw [transactAux_ok env 0 2 Option.none h0]
    · obtain ⟨v0, hv0⟩ := Option.isSome_iff_exists.mp (hprev 0 (by omega))
      show transactAux env 0 3 Option.none = _
      rw [transactAux_err env 0 2 Option.none v0 hv0,
        transactAux_ok env 1 1 (some v0) h0]
    · obtain ⟨v0, hv0⟩ := Option.isSome_iff_exists.mp (hprev 0 (by omega))
      obtain ⟨v1, hv1⟩ := Option.isSome_iff_exists.mp (hprev 1 (by omega))
      show transactAux env 0 3 Option.none = _
      rw [transactAux_err env 0 2 Option.none v0 hv0,
        transactAux_err env 1 1 (some v0) v1 hv1,
        transactAux_ok env 2 0 (some v1) h0]

/-- C5 witness: with every attempt failing, `Transact` runs 3 attempts,
logs exhaustion and returns the third attempt's business error; with the
first commit succeeding it returns nil after exactly one attempt. -/
theorem retry_budget_witness :
    Transact envAllFail = ⟨some (.business 2), 3, [], true⟩ ∧
      Transact envFirstOK = ⟨Option.none, 1, [], false⟩ :=
  ⟨(retry_budget envAllFail).1 (fun _ _ => rfl),
   (retry_budget envFirstOK).2 0 (by omega) rfl
      (fun j hj => absurd hj (Nat.not_lt_zero j))⟩

/-- C6: the commit flushes exactly the dirty set — when the caller's
function succeeds and the commit goes through, the applied bindings are
exactly: one `SET` per dirty key, with that key's cached bytes; keys
outside the dirty set (merely read or checked) are never written
back. -/
theorem commit_flushes_dirty_set (env : Env) (i : Nat) (t : Transaction)
    (hf : env.f i freshTransaction = (Option.none, t)) (hc : env.commitOK i = true) :
    ∀ k v, ((k, v) ∈ (attemptRun env i).applied ↔
      k ∈ t.written ∧ v = (alookup k t.cache).getD []) := by
  intro k v
  rw [attemptRun_commit env i t hf hc]
  show (k, v) ∈ t.written.map (fun k => (k, (alookup k t.cache).getD [])) ↔ _
  rw [List.mem_map]
  constructor
  · rintro ⟨a, ha, heq⟩
    cases heq
    exact ⟨ha, rfl⟩
  · rintro ⟨hk, rfl⟩
    exact ⟨k, hk, rfl⟩

/-- C6 witness: an attempt whose function leaves dirty set `{"k"}` with
cached bytes `[7]` commits exactly the binding `("k", [7])`. -/
theorem commit_flushes_dirty_set_witness :
    (("k", [7]) ∈ (attemptRun envOneWrite 0).applied ↔
      "k" ∈ (["k"] : List String) ∧ [7] = (alookup "k" [("k", [7])]).getD []) :=
  commit_flushes_dirty_set envOneWrite 0 ⟨[("k", [7])], ["k"]⟩ rfl rfl "k" [7]

/-- C7: round-trip law of the codec — decoding the encoding of any
supported value yields a value equal to the original.  The codec is
modelled from the spec (it is `encoding/gob`, external to this
repository); dynamic element types are those covered by the `Value`
shape, registered once per process in `initDB`. -/
theorem codec_round_trip (v : Value) : decode (encode v) = some v :=
  decode_encode v

/-- C8: `Write` is deferred and store-silent — invoking the returned
closure performs no store operation (no watch, no fetch, no set), and
mutates nothing but the cache entry of the written key and the dirty
set: every other key's cache binding and dirty-set membership are
unchanged. -/
theorem write_store_silent (t : Transaction) (key : String) (v : GoValue) :
    ((Transaction.Write t key).invoke t v).2.2.2 = Effects.none ∧
      (∀ k, k ≠ key →
        alookup k (((Transaction.Write t key).invoke t v).2.2.1).cache =
          alookup k t.cache) ∧
      (∀ k, k ≠ key →
        (k ∈ (((Transaction.Write t key).invoke t v).2.2.1).written ↔
          k ∈ t.written)) := by
  rcases hg : gobEncode v with _ | bs
  · rw [invoke_fail _ t v hg]
    exact ⟨rfl, fun _ _ => rfl, fun _ _ => Iff.rfl⟩
  · rw [invoke_ok _ t v bs hg]
    refine ⟨rfl, ?_, ?_⟩
    · intro k hk
      show alookup k (mapSet key ((Transaction.Write t key).buffer ++ bs) t.cache) = _
      rw [alookup_mapSet, if_neg hk]
    · intro k hk
      show k ∈ setAdd key t.written ↔ k ∈ t.written
      rw [mem_setAdd]
      constructor
      · rintro (rfl | h)
        · exact absurd rfl hk
        · exact h
      · exact Or.inr

/-- C8 witness: writing `"b"` into a context leaves the other key
`"a"`'s cache binding and dirty-set membership untouched, with no store
interaction. -/
theorem write_store_silent_witness :
    ((Transaction.Write dirtyA "b").invoke dirtyA (.supported (.vint 0))).2.2.2 =
        Effects.none ∧
      alookup "a" (((Transaction.Write dirtyA "b").invoke dirtyA
          (.supported (.vint 0))).2.2.1).cache = alookup "a" dirtyA.cache ∧
      ("a" ∈ (((Transaction.Write dirtyA "b").invoke dirtyA
          (.supported (.vint 0))).2.2.1).written ↔ "a" ∈ dirtyA.written) :=
  ⟨(write_store_silent dirtyA "b" (.supported (.vint 0))).1,
   (write_store_silent dirtyA "b" (.supported (.vint 0))).2.1 "a" (by decide),
   (write_store_silent dirtyA "b" (.supported (.vint 0))).2.2 "a" (by decide)⟩

/-- C9: fresh context per attempt — the caller's function is only ever
invoked on the fresh empty context (`freshTransaction`, with empty
cache and empty dirty set): two environments whose functions and commit
outcomes agree on the fresh context produce identical `Transact` runs,
however much their functions differ on non-fresh contexts; nothing
carries over between attempts but the counter. -/
theorem fresh_context_per_attempt (env env' : Env)
    (hf : ∀ i, env.f i freshTransaction = env'.f i freshTransaction)
    (hc : ∀ i, env.commitOK i = env'.commitOK i) :
    Transact env = Transact env' ∧
      freshTransaction.cache = [] ∧ freshTransaction.written = [] := by
  refine ⟨?_, rfl, rfl⟩
  have hatt : ∀ i, attemptRun env i = attemptRun env' i := by
    intro i
    unfold attemptRun
    rw [hf i, hc i]
  have haux : ∀ n i le, transactAux env i n le = transactAux env' i n le := by
    intro n
    induction n with
    | zero => intro i le; rfl
    | succ n ih =>
        intro i le
        rcases hv : (attemptRun env' i).err with _ | e
        · rw [transactAux_ok env i n le (by rw [hatt i]; exact hv),
            transactAux_ok env' i n le hv, hatt i]
        · rw [transactAux_err env i n le e (by rw [hatt i]; exact hv),
            transactAux_err env' i n le e hv]
          exact ih (i + 1) (some e)
  exact haux 3 0 Option.none

/-- C9 witness: an environment whose function errors on any context
with a dirty key behaves, under `Transact`, identically to the plain
one — the function never sees a non-fresh context. -/
theorem fresh_context_witness :
    Transact envPlain = Transact envDirty ∧
      freshTransaction.cache = [] ∧ freshTransaction.written = [] :=
  fresh_context_per_attempt envPlain envDirty (fun _ => rfl) (fun _ => rfl)

/-- C10: a failed encode leaves the attempt's state unchanged — the
closure returns the encode error, the closure, cache and dirty set are
exactly as before, and no store interaction happens, so the key can
never be flushed at commit because of this invocation. -/
theorem failed_encode_leaves_state (t : Transaction) (key : String) (v : GoValue)
    (h : gobEncode v = Option.none) :
    (Transaction.Write t key).invoke t v =
      (.error .encodeFailed, Transaction.Write t key, t, Effects.none) :=
  invoke_fail (Transaction.Write t key) t v h

/-- C10 witness: invoking a write closure with an unencodable value on
the fresh context returns the encode error and the untouched state. -/
theorem failed_encode_witness :
    (Transaction.Write freshTransaction "k").invoke freshTransaction .unsupported =
      (.error .encodeFailed, Transaction.Write freshTransaction "k", freshTransaction,
        Effects.none) :=
  failed_encode_leaves_state freshTransaction "k" .unsupported rfl

end ClaytsDatabase
